import Mathlib

/-!
A shallow embedding of the `eaterate` lazy-sequence library.

The Python library is a pull-based iterator protocol: every `Eaterator`
exposes one operation `next() : Option[T]` that mutates internal state and
returns either `Some(value)` or the absent option.  We embed each concrete
adapter as an explicit state type together with a `... Next` step function
`state → Option T × state`; the mutation of the Python object becomes
explicit state passing.  Primitive upstream iterators are modelled by the
list of elements they have yet to yield, with the convention (stated in the
spec's design notes) that an exhausted upstream keeps returning absent.
-/

namespace Eaterate

/-- One `next()` call on a primitive upstream iterator holding the remaining
elements: yields the head, or absent (permanently) when exhausted. -/
def listNext {T : Type} : List T → Option T × List T
  | [] => (none, [])
  | x :: xs => (some x, xs)

/-- Repeatedly call a step function, collecting the yielded elements until
the first absent result or until the fuel runs out. -/
def drain {σ T : Type} (step : σ → Option T × σ) : Nat → σ → List T
  | 0, _ => []
  | n + 1, s =>
    match step s with
    | (none, _) => []
    | (some x, s') => x :: drain step n s'

/-- Embeds `Eaterator.all` (core.py): `x = self.next().map(fn)`; absent means
the sequence is exhausted and the answer is `True`; an unwrapped `False`
returns `False` immediately, leaving the rest of the upstream unconsumed.
The second component is the upstream state left behind. -/
def allE {α : Type} (p : α → Bool) : List α → Bool × List α
  | [] => (true, [])
  | x :: xs => if p x then allE p xs else (false, xs)

/-- Embeds `Eaterator.any` (core.py): absent means exhausted and the answer
is `False`; an unwrapped `True` returns `True` immediately, leaving the rest
of the upstream unconsumed. -/
def anyE {α : Type} (p : α → Bool) : List α → Bool × List α
  | [] => (false, [])
  | x :: xs => if p x then (true, xs) else anyE p xs

/-- Claim C2 as stated: `all` stops advancing at the first element on which
the predicate succeeds, and `any` stops advancing at the first element on
which the predicate fails (so the elements after that first success/failure
would remain unconsumed). -/
def allAnyStopEarlyClaim : Prop :=
  ∀ (p : Nat → Bool) (x : Nat) (xs : List Nat),
    (p x = true → (allE p (x :: xs)).2 = xs) ∧
    (p x = false → (anyE p (x :: xs)).2 = xs)

/-- Claim C2, counterexample: the claim as stated is false.  With the
predicate `n == 0` on the sequence `[0, 5]`, the predicate succeeds on the
first element `0`, yet `all` keeps advancing and also consumes `5` (the
leftover upstream is `[]`, not `[5]`): the code's `all` short-circuits on
the first predicate failure, not on the first success. -/
theorem allAnyStopEarlyClaim_false : ¬ allAnyStopEarlyClaim := by
  intro h
  exact absurd ((h (fun n => n == 0) 0 [5]).1 (by decide)) (by decide)

/-- Claim C2, amended: `all` short-circuits on the first predicate failure
(advancing past any prefix of successes and leaving the suffix after the
failing element unconsumed) and `any` short-circuits on the first predicate
success; on an empty sequence `all` returns true and `any` returns false
vacuously. -/
theorem allE_anyE_short_circuit {α : Type} (p : α → Bool)
    (pre1 pre2 xs ys : List α) (x y : α)
    (hpre1 : ∀ z ∈ pre1, p z = true) (hx : p x = false)
    (hpre2 : ∀ z ∈ pre2, p z = false) (hy : p y = true) :
    allE p ([] : List α) = (true, []) ∧
    anyE p ([] : List α) = (false, []) ∧
    allE p (pre1 ++ x :: xs) = (false, xs) ∧
    anyE p (pre2 ++ y :: ys) = (true, ys) := by
  refine ⟨rfl, rfl, ?_, ?_⟩
  · induction pre1 with
    | nil => simp [allE, hx]
    | cons a t ih =>
      have ha : p a = true := hpre1 a (by simp)
      rw [List.cons_append]
      rw [show allE p (a :: (t ++ x :: xs)) = allE p (t ++ x :: xs) by
        simp [allE, ha]]
      exact ih (fun z hz => hpre1 z (by simp [hz]))
  · induction pre2 with
    | nil => simp [anyE, hy]
    | cons a t ih =>
      have ha : p a = false := hpre2 a (by simp)
      rw [List.cons_append]
      rw [show anyE p (a :: (t ++ y :: ys)) = anyE p (t ++ y :: ys) by
        simp [anyE, ha]]
      exact ih (fun z hz => hpre2 z (by simp [hz]))

/-- Concrete instantiation of the amended C2 theorem. -/
theorem allE_anyE_short_circuit_witness :
    allE (fun n => n == 1) ([] : List Nat) = (true, []) ∧
    anyE (fun n => n == 1) ([] : List Nat) = (false, []) ∧
    allE (fun n => n == 1) ([1] ++ 0 :: [7]) = (false, [7]) ∧
    anyE (fun n => n == 1) ([0] ++ 1 :: [9]) = (true, [9]) :=
  allE_anyE_short_circuit (fun n => n == 1) [1] [0] [7] [9] 0 1
    (by decide) (by decide) (by decide) (by decide)

/-! ### `eater` — source adaptation (core.py, `eater`) -/

/-- The capabilities of a Python value that `eater` dispatches on:
whether it has a `__next__` method, whether it is an instance of
`Eaterator`, and whether it has an `__iter__` method.  Note that the
`Eaterator` base class itself defines both `__next__` and `__iter__`
(core.py), so every Eaterator instance has all three capabilities. -/
structure PyValue where
  hasNextMethod : Bool
  isEaterator : Bool
  hasIterMethod : Bool
  deriving DecidableEq

/-- What `eater` does with its input. -/
inductive EaterResult where
  /-- `return BuiltinItEaterator(it)` — wrap the pull-iterator. -/
  | wrapBuiltin
  /-- `return it` — pass the existing Eaterator through unchanged. -/
  | identity
  /-- `return BuiltinItEaterator(it.__iter__())` — wrap a fresh iterator. -/
  | wrapIterOf
  /-- `raise TypeError(...)` — the `UnsupportedInput` failure. -/
  | unsupported
  deriving DecidableEq

/-- Embeds the dispatch of `eater` (core.py): the `hasattr(it, "__next__")`
test comes first, then `isinstance(it, Eaterator)`, then
`hasattr(it, "__iter__")`, else the error. -/
def eaterDispatch (v : PyValue) : EaterResult :=
  if v.hasNextMethod then .wrapBuiltin
  else if v.isEaterator then .identity
  else if v.hasIterMethod then .wrapIterOf
  else .unsupported

/-- Embeds `BuiltinItEaterator.next` (core.py): call the host iterator's
`__next__` (modelled by the remaining-element list) and map the host's
`StopIteration` exhaustion signal to the absent option. -/
def builtinNext {T : Type} (xs : List T) : Option T × List T :=
  match listNext xs with
  | (some x, rest) => (some x, rest)
  | (none, rest) => (none, rest)

/-- Claim C1: the dispatch of `eater` evaluated at its failing input.  A
value with `__next__` is always wrapped in `BuiltinItEaterator`, whatever
its other capabilities; an existing `Eaterator` has `__next__` (and
`__iter__`) from its base class, so `eater` wraps it instead of returning
it by identity — the `isinstance(it, Eaterator)` branch is unreachable.
The wrapping of genuine pull-iterators (exhaustion maps to absent) and the
`UnsupportedInput` failure on capability-free values are as the claim
states. -/
theorem eater_wraps_existing_eaterator {T : Type} :
    (∀ b c : Bool, eaterDispatch ⟨true, b, c⟩ = .wrapBuiltin) ∧
    eaterDispatch ⟨true, true, true⟩ = .wrapBuiltin ∧
    EaterResult.wrapBuiltin ≠ EaterResult.identity ∧
    eaterDispatch ⟨false, false, false⟩ = .unsupported ∧
    (∀ (x : T) (xs : List T), builtinNext (x :: xs) = (some x, xs)) ∧
    builtinNext ([] : List T) = (none, []) :=
  ⟨fun _ _ => rfl, rfl, by decide, rfl, fun _ _ => rfl, rfl⟩

/-! ### `step_by` (core.py, `Eaterator.step_by` and `StepByEaterator`) -/

/-- The state of a `StepByEaterator`: the upstream, the step, and the
modulus counter `__i` (0 at construction). -/
structure StepBy (T : Type) where
  ups : List T
  step : Nat
  i : Nat
  deriving DecidableEq

/-- What the `step_by` combinator returns. -/
inductive StepByCtorResult (T : Type) where
  /-- `if step == 1: return self` — the receiver itself, unchanged. -/
  | identity
  /-- `return StepByEaterator(self, step)` — a new adapter. -/
  | adapter (s : StepBy T)
  /-- `assert step >= 0` failed at construction. -/
  | assertFail
  deriving DecidableEq

/-- Embeds `Eaterator.step_by` plus `StepByEaterator.__init__`: the method
returns `self` for `step == 1`; otherwise the constructor asserts
`step >= 0` (not `>= 1`) and initialises `__i = 0`. -/
def stepByCtor {T : Type} (step : Int) (ups : List T) : StepByCtorResult T :=
  if step == 1 then .identity
  else if step ≥ 0 then .adapter ⟨ups, step.toNat, 0⟩
  else .assertFail

/-- Embeds `StepByEaterator.next` with explicit fuel for the (bounded)
self-recursion: `x = self.__eat.next()`; with `__i == 0` set `__i = 1` and
return `x`; otherwise compute `(__i + 1) % __step` — a `ZeroDivisionError`
when the step is 0 — and recurse. -/
def stepByNextF {T : Type} : Nat → StepBy T → Except String (Option T × StepBy T)
  | 0, _ => .error "fuel"
  | fuel + 1, s =>
    let (x, ups') := listNext s.ups
    if s.i == 0 then .ok (x, ⟨ups', s.step, 1⟩)
    else if s.step == 0 then .error "ZeroDivisionError"
    else stepByNextF fuel ⟨ups', s.step, (s.i + 1) % s.step⟩

/-- `StepByEaterator.next` with enough fuel for every reachable state (the
recursion wraps the counter back to 0 after at most `step` calls). -/
def stepByNext {T : Type} (s : StepBy T) : Except String (Option T × StepBy T) :=
  stepByNextF (s.step + 1) s

/-- Claim C3 as stated: every non-positive step argument, including 0, is
rejected by the eager precondition check of the combinator. -/
def stepByRejectsNonPositiveClaim : Prop :=
  ∀ (step : Int), step ≤ 0 → ∀ ups : List Nat,
    stepByCtor step ups = .assertFail

/-- Claim C3, counterexample: `step_by(0)` on upstream `[1, 2, 3]` is not
rejected at construction — the constructor's `assert step >= 0` accepts 0
and builds the adapter. -/
theorem stepByRejectsNonPositiveClaim_false : ¬ stepByRejectsNonPositiveClaim := by
  intro h
  exact absurd (h 0 (by decide) [1, 2, 3]) (by decide)

/-- Claim C3, amended: `step_by(1)` returns the receiver itself unchanged;
negative steps fail the constructor's `assert step >= 0` eagerly at
construction; but `step == 0` passes the precondition check, the first
advance still succeeds, and the error surfaces only on the second advance
as a modulus-by-zero `ZeroDivisionError`. -/
theorem stepBy_precondition {T : Type} (step : Int) (ups : List T)
    (hneg : step < 0) :
    stepByCtor (1 : Int) ups = .identity ∧
    stepByCtor step ups = .assertFail ∧
    stepByCtor (0 : Int) ups = .adapter ⟨ups, 0, 0⟩ ∧
    stepByNext (⟨ups, 0, 0⟩ : StepBy T) =
      .ok ((listNext ups).1, ⟨(listNext ups).2, 0, 1⟩) ∧
    stepByNext (⟨(listNext ups).2, 0, 1⟩ : StepBy T) =
      .error "ZeroDivisionError" := by
  refine ⟨rfl, ?_, rfl, ?_, rfl⟩
  · have h1 : (step == 1) = false := by
      rw [beq_eq_false_iff_ne]
      omega
    have h2 : ¬ step ≥ 0 := by omega
    simp [stepByCtor, h1, h2]
  · cases ups <;> rfl

/-- Concrete instantiation of the amended C3 theorem. -/
theorem stepBy_precondition_witness :
    stepByCtor (1 : Int) [1, 2, 3] = .identity ∧
    stepByCtor (-1 : Int) [1, 2, 3] = .assertFail ∧
    stepByCtor (0 : Int) [1, 2, 3] = .adapter ⟨[1, 2, 3], 0, 0⟩ ∧
    stepByNext (⟨[1, 2, 3], 0, 0⟩ : StepBy Nat) =
      .ok ((listNext [1, 2, 3]).1, ⟨(listNext [1, 2, 3]).2, 0, 1⟩) ∧
    stepByNext (⟨(listNext [1, 2, 3]).2, 0, 1⟩ : StepBy Nat) =
      .error "ZeroDivisionError" :=
  stepBy_precondition (-1) [1, 2, 3] (by decide)

/-! ### `chain` (core.py, `ChainEaterator`) -/

/-- The state of a `ChainEaterator`: the two upstreams `__a`, `__b` and the
done flag `__d` (false at construction). -/
structure Chain (T : Type) where
  a : List T
  b : List T
  d : Bool
  deriving DecidableEq

/-- Embeds `ChainEaterator.next`: while the done flag is unset, advance
`__a`; a present result is returned, an absent one sets the flag.  With the
flag set (or just now set), advance `__b` and return its result. -/
def chainNext {T : Type} (s : Chain T) : Option T × Chain T :=
  if s.d then
    match listNext s.b with
    | (x, b') => (x, ⟨s.a, b', true⟩)
  else
    match listNext s.a with
    | (some x, a') => (some x, ⟨a', s.b, false⟩)
    | (none, a') =>
      match listNext s.b with
      | (x, b') => (x, ⟨a', b', true⟩)

/-- Once done, `chain` drains exactly the remaining elements of `__b`. -/
theorem chain_drain_done {T : Type} (a0 : List T) :
    ∀ (B : List T) (fuel : Nat), B.length < fuel →
      drain chainNext fuel ⟨a0, B, true⟩ = B := by
  intro B
  induction B with
  | nil =>
    intro fuel hf
    match fuel, hf with
    | f + 1, _ => rfl
  | cons y ys ih =>
    intro fuel hf
    match fuel, hf with
    | f + 1, hf =>
      show y :: drain chainNext f ⟨a0, ys, true⟩ = y :: ys
      rw [ih f (by simpa using hf)]

/-- From a fresh chain state, draining yields `A ++ B`. -/
theorem chain_drain_eq {T : Type} :
    ∀ (A B : List T) (fuel : Nat), A.length + B.length < fuel →
      drain chainNext fuel ⟨A, B, false⟩ = A ++ B := by
  intro A
  induction A with
  | nil =>
    intro B fuel hf
    match B, fuel, hf with
    | [], f + 1, _ => rfl
    | y :: ys, f + 1, hf =>
      show y :: drain chainNext f ⟨[], ys, true⟩ = y :: ys
      rw [chain_drain_done [] ys f (by simpa using hf)]
  | cons x xs ih =>
    intro B fuel hf
    match fuel, hf with
    | f + 1, hf =>
      show x :: drain chainNext f ⟨xs, B, false⟩ = x :: (xs ++ B)
      rw [ih B f (by simpa [Nat.succ_add] using hf)]

/-- Claim C5: `chain(A, B)` drains to exactly the elements of A in order
followed by those of B in order, and its count is `count(A) + count(B)`.
Operationally: with the done flag set, every advance consults only `__b`
and leaves `__a` untouched; with the flag unset and `__a` exhausted, the
advance sets the flag and returns `__b`'s result. -/
theorem chain_spec {T : Type} (A B : List T) :
    drain chainNext (A.length + B.length + 1) ⟨A, B, false⟩ = A ++ B ∧
    (A ++ B).length = A.length + B.length ∧
    (∀ a b : List T,
      chainNext ⟨a, b, true⟩ = ((listNext b).1, ⟨a, (listNext b).2, true⟩)) ∧
    (∀ b : List T,
      chainNext ⟨[], b, false⟩ = ((listNext b).1, ⟨[], (listNext b).2, true⟩)) ∧
    (∀ (x : T) (xs b : List T),
      chainNext ⟨x :: xs, b, false⟩ = (some x, ⟨xs, b, false⟩)) := by
  refine ⟨chain_drain_eq A B _ (by omega), List.length_append A B, ?_, ?_, ?_⟩
  · intro a b
    cases b <;> rfl
  · intro b
    cases b <;> rfl
  · intro x xs b
    rfl

/-! ### `zip` (core.py, `ZipEaterator`) -/

/-- The state of a `ZipEaterator`: the two upstreams `__a` and `__b`. -/
structure Zip (T K : Type) where
  a : List T
  b : List K
  deriving DecidableEq

/-- Embeds `ZipEaterator.next`: advance both upstreams unconditionally;
return a present pair only if both results are present, else absent. -/
def zipNext {T K : Type} (s : Zip T K) : Option (T × K) × Zip T K :=
  match listNext s.a, listNext s.b with
  | (some x, a'), (some y, b') => (some (x, y), ⟨a', b'⟩)
  | (_, a'), (_, b') => (none, ⟨a', b'⟩)

/-- Draining a zip of two lists yields their elementwise pairs. -/
theorem zip_drain_eq {T K : Type} :
    ∀ (A : List T) (B : List K) (fuel : Nat),
      min A.length B.length < fuel →
      drain zipNext fuel ⟨A, B⟩ = A.zip B := by
  intro A
  induction A with
  | nil =>
    intro B fuel hf
    match fuel, hf with
    | f + 1, _ => cases B <;> rfl
  | cons x xs ih =>
    intro B fuel hf
    match B, fuel, hf with
    | [], f + 1, _ => rfl
    | y :: ys, f + 1, hf =>
      show (x, y) :: drain zipNext f ⟨xs, ys⟩ = (x, y) :: xs.zip ys
      rw [ih ys f (by simp at hf; omega)]

/-- Claim C6: `zip(A, B)` drains to exactly `min(count(A), count(B))`
pairs, elementwise in order.  Operationally every advance consumes one
element from each upstream regardless of the outcome, and a present pair
is returned only when both sides were present: when one side is exhausted
the other side's pulled element is consumed and lost. -/
theorem zip_spec {T K : Type} (A : List T) (B : List K) :
    drain zipNext (min A.length B.length + 1) ⟨A, B⟩ = A.zip B ∧
    (A.zip B).length = min A.length B.length ∧
    (∀ (a : List T) (b : List K),
      (zipNext ⟨a, b⟩).2 = ⟨a.tail, b.tail⟩) ∧
    (∀ (y : K) (ys : List K),
      zipNext ⟨([] : List T), y :: ys⟩ = (none, ⟨[], ys⟩)) ∧
    (∀ (x : T) (xs : List T),
      zipNext ⟨x :: xs, ([] : List K)⟩ = (none, ⟨xs, []⟩)) := by
  refine ⟨zip_drain_eq A B _ (by omega), List.length_zip A B, ?_, ?_, ?_⟩
  · intro a b
    cases a <;> cases b <;> rfl
  · intro y ys
    rfl
  · intro x xs
    rfl

/-! ### `windows` (core.py, `WindowsEaterator`) -/

/-- The state of a `WindowsEaterator`: upstream `__eat`, the bounded
buffer `__d` and the window size `__windows`. -/
structure Windows (T : Type) where
  ups : List T
  d : List T
  size : Nat
  deriving DecidableEq

/-- Embeds the priming loop of `WindowsEaterator.__init__`: up to `size`
eager pulls from upstream, stopping early at the first absent; returns the
filled buffer and the remaining upstream. -/
def windowsPrime {T : Type} : Nat → List T → List T × List T
  | 0, xs => ([], xs)
  | _ + 1, [] => ([], [])
  | n + 1, x :: xs =>
    match windowsPrime n xs with
    | (buf, rest) => (x :: buf, rest)

/-- Embeds `WindowsEaterator.__init__` as a whole. -/
def mkWindows {T : Type} (xs : List T) (size : Nat) : Windows T :=
  match windowsPrime size xs with
  | (buf, rest) => ⟨rest, buf, size⟩

/-- Embeds `WindowsEaterator.next`: absent if the buffer is shorter than
the window size (the state is unchanged, so absent is permanent);
otherwise snapshot the buffer, pop its oldest element, append one more
upstream pull if present, and return the snapshot. -/
def windowsNext {T : Type} (s : Windows T) : Option (List T) × Windows T :=
  if s.d.length < s.size then (none, s)
  else
    match listNext s.ups with
    | (some x, ups') => (some s.d, ⟨ups', s.d.tail ++ [x], s.size⟩)
    | (none, ups') => (some s.d, ⟨ups', s.d.tail, s.size⟩)

/-- The list of windows the spec promises: one contiguous length-`size`
slice per start offset `0 … L - size`. -/
def specWindows {T : Type} (xs : List T) (size : Nat) : List (List T) :=
  (List.range (xs.length + 1 - size)).map (fun i => (xs.drop i).take size)

theorem windowsPrime_eq {T : Type} :
    ∀ (n : Nat) (xs : List T), windowsPrime n xs = (xs.take n, xs.drop n) := by
  intro n
  induction n with
  | zero => intro xs; cases xs <;> rfl
  | succ m ih =>
    intro xs
    cases xs with
    | nil => rfl
    | cons x rest => simp [windowsPrime, ih rest]

theorem specWindows_cons {T : Type} (h : T) (zs : List T) (size : Nat)
    (hs : size ≤ zs.length + 1) :
    specWindows (h :: zs) size = ((h :: zs).take size) :: specWindows zs size := by
  unfold specWindows
  rw [show (h :: zs).length + 1 - size = (zs.length + 1 - size) + 1 by
    simp only [List.length_cons]; omega]
  rw [List.range_succ_eq_map, List.map_cons, List.map_map]
  simp [Function.comp_def, List.drop_succ_cons]

/-- A windows state whose buffer is too short yields nothing, whatever the
fuel. -/
theorem windows_drain_short {T : Type} (s : Windows T) (fuel : Nat)
    (h : s.d.length < s.size) : drain windowsNext fuel s = [] := by
  cases fuel with
  | zero => rfl
  | succ f => simp [drain, windowsNext, h]

/-- Draining a windows state whose buffer is exactly full yields all the
contiguous windows of buffer-then-upstream. -/
theorem windows_drain_full {T : Type} (size : Nat) (hsz : 1 ≤ size) :
    ∀ (ups d : List T) (fuel : Nat), d.length = size → ups.length < fuel →
      drain windowsNext fuel ⟨ups, d, size⟩ = specWindows (d ++ ups) size := by
  intro ups
  induction ups with
  | nil =>
    intro d fuel hd hf
    match fuel, hf with
    | f + 1, _ =>
      have hnotlt : ¬ d.length < size := by omega
      have h1 : windowsNext ⟨[], d, size⟩ = (some d, ⟨[], d.tail, size⟩) := by
        simp [windowsNext, hnotlt, listNext]
      have h2 : drain windowsNext f ⟨[], d.tail, size⟩ = [] := by
        refine windows_drain_short _ _ ?_
        show d.tail.length < size
        simp only [List.length_tail]
        omega
      simp only [drain, h1, h2]
      rw [List.append_nil]
      unfold specWindows
      rw [show d.length + 1 - size = 1 by omega]
      rw [show List.range 1 = [0] by rfl]
      simp only [List.map_cons, List.map_nil, List.drop_zero]
      rw [← hd, List.take_length]
  | cons x rest ih =>
    intro d fuel hd hf
    match fuel, hf with
    | f + 1, hf =>
      have hnotlt : ¬ d.length < size := by omega
      have h1 : windowsNext ⟨x :: rest, d, size⟩ =
          (some d, ⟨rest, d.tail ++ [x], size⟩) := by
        simp [windowsNext, hnotlt, listNext]
      have hd' : (d.tail ++ [x]).length = size := by
        simp only [List.length_append, List.length_tail, List.length_cons,
          List.length_nil]
        omega
      have ihr := ih (d.tail ++ [x]) f hd'
        (by simp only [List.length_cons] at hf; omega)
      simp only [drain, h1, ihr]
      obtain ⟨a, tl, rfl⟩ : ∃ a tl, d = a :: tl := by
        cases d with
        | nil => simp at hd; omega
        | cons a tl => exact ⟨a, tl, rfl⟩
      have hsize : size = tl.length + 1 := by
        simpa using hd.symm
      have htake : List.take size (a :: (tl ++ x :: rest)) = a :: tl := by
        rw [hsize, List.take_succ_cons, List.take_left]
      have harg : (a :: tl).tail ++ [x] ++ rest = tl ++ x :: rest := by
        simp
      rw [List.cons_append,
        specWindows_cons a (tl ++ x :: rest) size
          (by simp only [List.length_append, List.length_cons]; omega),
        htake, harg]

/-- Claim C7: for a finite source of length L and window size ≥ 1,
`windows(size)` primes its buffer with up to `size` eager pulls at
construction (buffer = the first `size` elements, upstream loses them);
draining yields exactly `max(0, L - size + 1)` windows, the i-th being the
contiguous length-`size` slice starting at offset i; and whenever the
buffer is shorter than `size`, an advance returns absent and leaves the
state unchanged (so the absence is permanent). -/
theorem windows_spec {T : Type} (xs : List T) (size : Nat) (hsz : 1 ≤ size) :
    drain windowsNext (xs.length + 1) (mkWindows xs size) = specWindows xs size ∧
    (specWindows xs size).length = xs.length + 1 - size ∧
    mkWindows xs size = ⟨xs.drop size, xs.take size, size⟩ ∧
    (∀ (ups d : List T), d.length < size →
      windowsNext ⟨ups, d, size⟩ = (none, ⟨ups, d, size⟩)) := by
  have hmk : mkWindows xs size = ⟨xs.drop size, xs.take size, size⟩ := by
    unfold mkWindows
    rw [windowsPrime_eq]
  refine ⟨?_, by simp [specWindows], hmk, fun ups d h => by simp [windowsNext, h]⟩
  rw [hmk]
  by_cases hle : size ≤ xs.length
  · have htk : (xs.take size).length = size := by
      simp [List.length_take]
      omega
    have := windows_drain_full size hsz (xs.drop size) (xs.take size)
      (xs.length + 1) htk (by simp [List.length_drop]; omega)
    rw [this, List.take_append_drop]
  · have hshort : (xs.take size).length < size := by
      simp [List.length_take]
      omega
    rw [windows_drain_short ⟨xs.drop size, xs.take size, size⟩ _ hshort]
    unfold specWindows
    rw [show xs.length + 1 - size = 0 by omega]
    rfl

/-- Concrete instantiation of the C7 theorem: `[1,2,3,4].windows(2)` yields
`[[1,2],[2,3],[3,4]]`, and a short buffer yields absent with the state
unchanged. -/
theorem windows_spec_witness :
    drain windowsNext 5 (mkWindows [1, 2, 3, 4] 2) =
      specWindows [1, 2, 3, 4] 2 ∧
    windowsNext ⟨([] : List Nat), [9], 2⟩ = (none, ⟨[], [9], 2⟩) :=
  ⟨(windows_spec [1, 2, 3, 4] 2 (by decide)).1,
   (windows_spec ([0, 0] : List Nat) 2 (by decide)).2.2.2 [] [9] (by decide)⟩

/-! ### `ERange` (erange.py) -/

/-- The state of an `ERange`: the integer cursor `__i` and the exclusive
bound `__stop`. -/
structure ERangeS where
  i : Int
  stop : Int
  deriving DecidableEq

/-- Embeds `ERange.next`: absent if the cursor has reached the bound
(`__i >= __stop`), else return the cursor and post-increment it. -/
def erangeNext (s : ERangeS) : Option Int × ERangeS :=
  if s.i ≥ s.stop then (none, s)
  else (some s.i, ⟨s.i + 1, s.stop⟩)

/-- Embeds `ERange.inclusive`: `self.__stop += 1; return self` — the stored
exclusive bound grows by exactly one, the cursor is untouched (the update
is in place on the same range, not on a fresh copy). -/
def inclusive (s : ERangeS) : ERangeS :=
  ⟨s.i, s.stop + 1⟩

/-- The integers `a, a+1, …, b-1` the range should yield. -/
def rangeList (a b : Int) : List Int :=
  (List.range (b - a).toNat).map (fun k => a + Int.ofNat k)

theorem erange_drain :
    ∀ (fuel : Nat) (a b : Int), (b - a).toNat < fuel →
      drain erangeNext fuel ⟨a, b⟩ = rangeList a b := by
  intro fuel
  induction fuel with
  | zero => intro a b h; omega
  | succ f ih =>
    intro a b h
    by_cases hab : a ≥ b
    · have h1 : erangeNext ⟨a, b⟩ = (none, ⟨a, b⟩) := by
        simp [erangeNext, hab]
      simp only [drain, h1]
      unfold rangeList
      rw [show (b - a).toNat = 0 by omega]
      rfl
    · push_neg at hab
      have h1 : erangeNext ⟨a, b⟩ = (some a, ⟨a + 1, b⟩) := by
        simp only [erangeNext]
        rw [if_neg (by omega)]
      simp only [drain, h1]
      rw [ih (a + 1) b (by omega)]
      unfold rangeList
      rw [show (b - a).toNat = (b - (a + 1)).toNat + 1 by omega]
      rw [List.range_succ_eq_map, List.map_cons, List.map_map]
      refine congrArg₂ _ (by simp) ?_
      refine List.map_congr_left fun k _ => ?_
      simp only [Function.comp_apply, Int.ofNat_eq_coe, Nat.succ_eq_add_one]
      push_cast
      ring

/-- Claim C8: advancing a bounded range returns present(cursor) and
post-increments while `cursor < stop`, and absent (state unchanged) once
`cursor ≥ stop`, so draining yields `start, start+1, …, stop-1` in order;
and `inclusive()` turns the half-open range into a closed one by adding
exactly one to the stored bound in place (the cursor is preserved), after
which draining also yields the old bound itself. -/
theorem erange_spec (a b : Int) :
    (∀ s : ERangeS,
      erangeNext s =
        if s.i ≥ s.stop then (none, s) else (some s.i, ⟨s.i + 1, s.stop⟩)) ∧
    drain erangeNext ((b - a).toNat + 1) ⟨a, b⟩ = rangeList a b ∧
    inclusive ⟨a, b⟩ = ⟨a, b + 1⟩ ∧
    drain erangeNext ((b + 1 - a).toNat + 1) (inclusive ⟨a, b⟩) =
      rangeList a (b + 1) :=
  ⟨fun _ => rfl,
   erange_drain _ a b (by omega),
   rfl,
   erange_drain _ a (b + 1) (by omega)⟩

/-! ### `try_for_each` (core.py, `Eaterator.try_for_each`) -/

/-- Embeds `Eaterator.try_for_each`.  The fallible callback is modelled as
`fn : T → Option ε` (`none` = the call returned normally, `some e` = it
raised the error `e`); the declared error kind `_errhint` is the predicate
`kind : ε → Bool` (`isinstance` against the hint; the default hint
`Exception` is the constantly-true predicate).  The result is
`Except.ok (some e)` when a matching error was caught and returned as a
value, `Except.error e` when a non-matching error propagated, and
`Except.ok none` when the sequence drained with no error; the second
component is the upstream left unconsumed. -/
def tryForEach {T ε : Type} (fn : T → Option ε) (kind : ε → Bool) :
    List T → Except ε (Option ε) × List T
  | [] => (.ok none, [])
  | x :: xs =>
    match fn x with
    | none => tryForEach fn kind xs
    | some e => if kind e then (.ok (some e), xs) else (.error e, xs)

/-- Claim C9: `try_for_each` drains the sequence calling the callback on
each element; at the first element whose error matches the declared kind
the drain halts right there and the error is returned as a value; a
non-matching error propagates (as a raised exception) from that same
element; and a drain that reaches exhaustion with no error returns the
no-error value.  Under the default kind (the constantly-true `Exception`
test) every error is caught. -/
theorem tryForEach_spec {T ε : Type} (fn : T → Option ε) (kind : ε → Bool)
    (pre pre' ys post post' : List T) (x x' : T) (e e' : ε)
    (hpre : ∀ y ∈ pre, fn y = none) (hx : fn x = some e)
    (hke : kind e = true)
    (hpre' : ∀ y ∈ pre', fn y = none) (hx' : fn x' = some e')
    (hke' : kind e' = false)
    (hys : ∀ y ∈ ys, fn y = none) :
    tryForEach fn kind (pre ++ x :: post) = (.ok (some e), post) ∧
    tryForEach fn kind (pre' ++ x' :: post') = (.error e', post') ∧
    tryForEach fn kind ys = (.ok none, []) ∧
    tryForEach fn (fun _ => true) (pre ++ x :: post) = (.ok (some e), post) := by
  have skipClean : ∀ (k : ε → Bool) (l tail : List T), (∀ y ∈ l, fn y = none) →
      tryForEach fn k (l ++ tail) = tryForEach fn k tail := by
    intro k l tail hl
    induction l with
    | nil => rfl
    | cons a t ih =>
      have ha : fn a = none := hl a (by simp)
      rw [List.cons_append]
      rw [show tryForEach fn k (a :: (t ++ tail)) = tryForEach fn k (t ++ tail) by
        simp [tryForEach, ha]]
      exact ih (fun y hy => hl y (by simp [hy]))
  refine ⟨?_, ?_, ?_, ?_⟩
  · rw [skipClean kind pre (x :: post) hpre]
    simp [tryForEach, hx, hke]
  · rw [skipClean kind pre' (x' :: post') hpre']
    simp [tryForEach, hx', hke']
  · rw [show ys = ys ++ [] by simp, skipClean kind ys [] hys]
    rfl
  · rw [skipClean (fun _ => true) pre (x :: post) hpre]
    simp [tryForEach, hx]

/-- Concrete instantiation of the C9 theorem: callback raising `n` on every
element `n ≥ 10`, declared kind catching exactly the error 10. -/
theorem tryForEach_spec_witness :
    tryForEach (fun n => if n ≥ 10 then some n else none) (fun e => e == 10)
      ([1] ++ 10 :: [3]) = (.ok (some 10), [3]) ∧
    tryForEach (fun n => if n ≥ 10 then some n else none) (fun e => e == 10)
      ([2] ++ 11 :: [4]) = (.error 11, [4]) ∧
    tryForEach (fun n => if n ≥ 10 then some n else none) (fun e => e == 10)
      [1, 2, 3] = (.ok none, []) ∧
    tryForEach (fun n => if n ≥ 10 then some n else none) (fun _ => true)
      ([1] ++ 10 :: [3]) = (.ok (some 10), [3]) :=
  tryForEach_spec (fun n => if n ≥ 10 then some n else none) (fun e => e == 10)
    [1] [2] [1, 2, 3] [3] [4] 10 11 10 11
    (by decide) (by decide) (by decide) (by decide) (by decide) (by decide)
    (by decide)

/-! ### `flatten` (core.py, `FlattenEaterator`) -/

/-- The state of a `FlattenEaterator`: the outer upstream `__eat` (whose
elements are sequence-like, modelled as lists) and the optional current
inner sequence `__cur`. -/
structure Flatten (T : Type) where
  ups : List (List T)
  cur : Option (List T)
  deriving DecidableEq

/-- Embeds `FlattenEaterator.__init__`:
`self.__cur = eat.next().map(eater)` — the outer upstream is advanced once
and its first element normalized into a sequence before any `next` call. -/
def mkFlatten {T : Type} (outer : List (List T)) : Flatten T :=
  match listNext outer with
  | (x, ups') => ⟨ups', x⟩

/-- Embeds `FlattenEaterator.next`: with no active inner sequence, pull the
next outer element, normalize it, and retry (absent when the outer is
exhausted); with an active inner, advance it, returning its element or
dropping the inner and retrying when it exhausts. -/
def flattenNext {T : Type} : Flatten T → Option T × Flatten T
  | ⟨ups, none⟩ =>
    match ups with
    | [] => (none, ⟨[], none⟩)
    | o :: os => flattenNext ⟨os, some o⟩
  | ⟨ups, some l⟩ =>
    match l with
    | [] => flattenNext ⟨ups, none⟩
    | x :: rest => (some x, ⟨ups, some rest⟩)
termination_by s =>
  2 * s.ups.length + (if s.cur.isSome then 2 else 1)
decreasing_by
  all_goals simp only [Option.isSome_some, Option.isSome_none, if_true,
    if_false, List.length_cons, Bool.false_eq_true, ite_false, ite_true]
  all_goals omega

theorem flattenNext_none_nil {T : Type} :
    flattenNext (⟨[], none⟩ : Flatten T) = (none, ⟨[], none⟩) := by
  rw [flattenNext.eq_def]

theorem flattenNext_none_cons {T : Type} (o : List T) (os : List (List T)) :
    flattenNext ⟨o :: os, none⟩ = flattenNext ⟨os, some o⟩ := by
  rw [flattenNext.eq_def]

theorem flattenNext_some_nil {T : Type} (ups : List (List T)) :
    flattenNext (⟨ups, some []⟩ : Flatten T) = flattenNext ⟨ups, none⟩ := by
  rw [flattenNext.eq_def]

theorem flattenNext_some_cons {T : Type} (ups : List (List T)) (x : T)
    (rest : List T) :
    flattenNext ⟨ups, some (x :: rest)⟩ = (some x, ⟨ups, some rest⟩) := by
  rw [flattenNext.eq_def]

theorem drain_step_congr {σ T : Type} (step : σ → Option T × σ) (s s' : σ)
    (h : step s = step s') (f : Nat) :
    drain step (f + 1) s = drain step (f + 1) s' := by
  simp only [drain, h]

/-- Draining a flatten state with no active inner yields the concatenation
of the remaining outer elements. -/
theorem flatten_drain {T : Type} :
    ∀ (outer : List (List T)) (fuel : Nat), outer.flatten.length < fuel →
      drain flattenNext fuel ⟨outer, none⟩ = outer.flatten := by
  intro outer
  induction outer with
  | nil =>
    intro fuel hf
    match fuel, hf with
    | f + 1, _ => simp [drain, flattenNext_none_nil]
  | cons o os ih =>
    intro fuel hf
    have inner : ∀ (l : List T) (fuel : Nat),
        l.length + os.flatten.length < fuel →
        drain flattenNext fuel ⟨os, some l⟩ = l ++ os.flatten := by
      intro l
      induction l with
      | nil =>
        intro fuel hf
        match fuel, hf with
        | f + 1, hf =>
          rw [drain_step_congr flattenNext ⟨os, some []⟩ ⟨os, none⟩
            (flattenNext_some_nil os) f]
          simpa using ih (f + 1) (by simpa using hf)
      | cons x rest ihl =>
        intro fuel hf
        match fuel, hf with
        | f + 1, hf =>
          simp only [drain, flattenNext_some_cons]
          rw [ihl f (by simp only [List.length_cons] at hf; omega)]
          rfl
    match fuel, hf with
    | f + 1, hf =>
      rw [drain_step_congr flattenNext ⟨o :: os, none⟩ ⟨os, some o⟩
        (flattenNext_none_cons o os) f]
      rw [inner o (f + 1)
        (by simp only [List.flatten_cons, List.length_append] at hf; omega)]
      rw [List.flatten_cons]

/-- Claim C10: constructing the flatten adapter eagerly advances the outer
sequence once and normalizes its first element into a sequence at
construction time — the outer upstream has already lost its head before the
first explicit advance.  After construction, an advance on an active
nonempty inner touches only that inner.  Draining from construction still
yields the flattening of the outer sequence. -/
theorem flatten_spec {T : Type} (o : List T) (os outer : List (List T)) :
    mkFlatten (o :: os) = ⟨os, some o⟩ ∧
    mkFlatten ([] : List (List T)) = ⟨[], none⟩ ∧
    drain flattenNext (outer.flatten.length + 1) (mkFlatten outer) =
      outer.flatten ∧
    (∀ (x : T) (rest : List T) (ups : List (List T)),
      flattenNext ⟨ups, some (x :: rest)⟩ = (some x, ⟨ups, some rest⟩)) := by
  refine ⟨rfl, rfl, ?_, fun x rest ups => flattenNext_some_cons ups x rest⟩
  cases outer with
  | nil => simp [mkFlatten, listNext, drain, flattenNext_none_nil]
  | cons o' os' =>
    show drain flattenNext ((o' :: os').flatten.length + 1) ⟨os', some o'⟩ =
      (o' :: os').flatten
    rw [drain_step_congr flattenNext ⟨os', some o'⟩ ⟨o' :: os', none⟩
      (flattenNext_none_cons o' os').symm _]
    exact flatten_drain (o' :: os') ((o' :: os').flatten.length + 1) (by omega)

/-! ### `Option` aliasing (option.py) -/

/-!
To state the aliasing claim about `option.py` the value-level `Option`
model is not enough: `Option.none()` returns the single module-level
`__NONE__` object, and `replace` mutates the receiver in place.  We model
the module heap explicitly: an `Option` object is a reference (index) into
a store of cells, each cell holding `some v` (present) or `none` (absent).
References are plain cell indices; cell 0 is the module-level `__NONE__`.
-/

/-- The heap of allocated `Option` objects. -/
structure Store (V : Type) where
  cells : List (Option V)
  deriving DecidableEq

/-- The module's initial heap: `__NONE__ = Option(None, False)` at cell 0. -/
def initStore (V : Type) : Store V := ⟨[none]⟩

/-- The observable state of the `Option` object behind a reference. -/
def readRef {V : Type} (s : Store V) (r : Nat) : Option V :=
  s.cells.getD r none

/-- Allocate a fresh `Option` object. -/
def alloc {V : Type} (s : Store V) (c : Option V) : Nat × Store V :=
  (s.cells.length, ⟨s.cells ++ [c]⟩)

/-- Overwrite the cell behind a reference in place. -/
def write {V : Type} (s : Store V) (r : Nat) (c : Option V) : Store V :=
  ⟨s.cells.set r c⟩

/-- Embeds `Option.none()`: `return __NONE__` — no allocation, always the
shared reference 0. -/
def noneOp {V : Type} (s : Store V) : Nat × Store V := (0, s)

/-- Embeds `Option.some(d)`: a freshly allocated present object. -/
def someOp {V : Type} (s : Store V) (v : V) : Nat × Store V :=
  alloc s (some v)

/-- Embeds `Option.replace(x)`: `self.__has = True; self.__data = x;
return self` — mutate the receiver in place and return it. -/
def replaceOp {V : Type} (s : Store V) (r : Nat) (v : V) : Nat × Store V :=
  (r, write s r (some v))

/-- Embeds `Option.map(fn)`: a fresh `Option.some(fn(data))` when present,
`return self` — the same object, no allocation — when absent. -/
def mapOp {V : Type} (s : Store V) (r : Nat) (f : V → V) : Nat × Store V :=
  match readRef s r with
  | some v => alloc s (some (f v))
  | none => (r, s)

/-- The heaps reachable from module load through the `Option` API. -/
inductive Reach {V : Type} : Store V → Prop
  | init : Reach (initStore V)
  | viaSome (s : Store V) (v : V) : Reach s → Reach (someOp s v).2
  | viaReplace (s : Store V) (r : Nat) (v : V) :
      Reach s → Reach (replaceOp s r v).2
  | viaMap (s : Store V) (r : Nat) (f : V → V) :
      Reach s → Reach (mapOp s r f).2

theorem absent_in_append {V : Type} (s : Store V) (c : V)
    (ih : ∀ r : Nat, r < s.cells.length → readRef s r = none → r = 0)
    (r : Nat) (hr : r < (s.cells ++ [some c]).length)
    (hread : (s.cells ++ [some c]).getD r none = none) : r = 0 := by
  by_cases h : r < s.cells.length
  · refine ih r h ?_
    rw [List.getD_eq_getElem?_getD, List.getElem?_append, if_pos h] at hread
    show s.cells.getD r none = none
    rw [List.getD_eq_getElem?_getD]
    exact hread
  · have : r = s.cells.length := by
      simp only [List.length_append, List.length_cons, List.length_nil] at hr
      omega
    subst this
    rw [List.getD_eq_getElem?_getD, List.getElem?_concat_length] at hread
    exact absurd hread (by simp)

/-- In every API-reachable heap, the only absent `Option` object is the
shared `__NONE__` at cell 0. -/
theorem reach_absent_is_shared {V : Type} :
    ∀ (s : Store V), Reach s → ∀ r : Nat, r < s.cells.length →
      readRef s r = none → r = 0 := by
  intro s hs
  induction hs with
  | init =>
    intro r hr _
    simp only [initStore, List.length_cons, List.length_nil] at hr
    omega
  | viaSome s v _ ih =>
    intro r hr hread
    exact absent_in_append s v ih r hr hread
  | viaReplace s r' v _ ih =>
    intro r2 hr2 hread
    simp only [replaceOp, write, List.length_set] at hr2
    by_cases h : r' = r2
    · subst h
      by_cases hlt : r' < s.cells.length
      · rw [show readRef (replaceOp s r' v).2 r' =
            (s.cells.set r' (some v)).getD r' none from rfl,
          List.getD_eq_getElem?_getD, List.getElem?_set_self hlt] at hread
        exact absurd hread (by simp)
      · omega
    · refine ih r2 hr2 ?_
      rw [show readRef (replaceOp s r' v).2 r2 =
          (s.cells.set r' (some v)).getD r2 none from rfl,
        List.getD_eq_getElem?_getD, List.getElem?_set_ne h] at hread
      show s.cells.getD r2 none = none
      rw [List.getD_eq_getElem?_getD]
      exact hread
  | viaMap s r' f _ ih =>
    intro r2 hr2 hread
    cases hcase : readRef s r' with
    | some v =>
      simp only [mapOp, hcase, alloc] at hr2 hread
      exact absent_in_append s (f v) ih r2 hr2 hread
    | none =>
      simp only [mapOp, hcase] at hr2 hread
      exact ih r2 hr2 hread

/-- Claim C4: in any API-reachable heap, `Option.none()` returns the shared
reference 0 (`__NONE__`) without allocating; any genuinely absent `Option`
object IS that shared instance; `map` on it returns the very same reference
with the heap untouched (no fresh absent value); and after one
`replace(v)` on any absent `Option`, the object behind every absent
reference — in particular the one every subsequent `Option.none()` call
returns — evaluates as present(v). -/
theorem option_none_shared {V : Type} (f : V → V) (s : Store V)
    (hs : Reach s) (r : Nat) (v : V) (hr : r < s.cells.length)
    (habs : readRef s r = none) :
    (noneOp s).1 = 0 ∧
    r = 0 ∧
    mapOp s r f = (r, s) ∧
    readRef (replaceOp s r v).2 (noneOp (replaceOp s r v).2).1 = some v ∧
    (∀ r2 : Nat, r2 < s.cells.length → readRef s r2 = none →
      readRef (replaceOp s r v).2 r2 = some v) := by
  have hr0 : r = 0 := reach_absent_is_shared s hs r hr habs
  have hwrite : ∀ r2 : Nat, r2 < s.cells.length → readRef s r2 = none →
      readRef (replaceOp s r v).2 r2 = some v := by
    intro r2 h2 habs2
    have h20 : r2 = 0 := reach_absent_is_shared s hs r2 h2 habs2
    subst h20
    rw [show readRef (replaceOp s r v).2 0 =
        (s.cells.set r (some v)).getD 0 none from rfl,
      List.getD_eq_getElem?_getD]
    subst hr0
    rw [List.getElem?_set_self hr]
    rfl
  refine ⟨rfl, hr0, ?_, ?_, hwrite⟩
  · simp [mapOp, habs]
  · show readRef (replaceOp s r v).2 0 = some v
    rw [← hr0]
    exact hwrite r hr habs

/-- Concrete instantiation of the C4 theorem on the freshly loaded module
heap: the absent option returned by `Option.none()` is cell 0, and after
`Option.none().replace(7)` a further `Option.none()` evaluates as present 7. -/
theorem option_none_shared_witness :
    (noneOp (initStore Nat)).1 = 0 ∧
    readRef (replaceOp (initStore Nat) 0 7).2
      (noneOp (replaceOp (initStore Nat) 0 7).2).1 = some 7 :=
  ⟨(option_none_shared (fun x => x) (initStore Nat) Reach.init 0 7
      (by decide) rfl).1,
   (option_none_shared (fun x => x) (initStore Nat) Reach.init 0 7
      (by decide) rfl).2.2.2.1⟩

end Eaterate
